import Mathlib

/-!
# wlib `stl/Hash.h`: hash functions for basic data types

A shallow embedding of `src/lib/wlib/wlib/stl/Hash.h` and the properties of its
string hashers and of its default hash.

Modelling conventions.

* The hash code type `IntType` is one of the fixed-width unsigned integer types
  `uint8_t`, `uint16_t`, `uint32_t`, `uint64_t`; a value of such a type is a
  natural number below `2 ^ bits`.
* `int` is 32 bits wide.  An operand narrower than `int` is promoted to `int`
  before arithmetic; arithmetic on `int` that leaves the range of `int` is
  undefined and is modelled by `none`.  Arithmetic on an unsigned type wraps.
* Whether plain `char` is signed is implementation-defined; it is the Boolean
  parameter `charSigned` throughout.  A character is stored as a byte `0..255`
  and `charValue` is the number that the expression `static_string[pos]` or `*s`
  denotes.
* A `const char *` is an index into a finite buffer; reading outside the buffer
  is undefined and modelled by the outcome `outOfBounds`.
-/

namespace wlp

/-- One stored character: a byte. -/
abbrev Byte := Fin 256

/-- The unsigned integer types a hash code can have (the template argument `IntType`). -/
inductive IntType
  | u8
  | u16
  | u32
  | u64
  deriving DecidableEq, Repr

/-- Width in bits of an `IntType`. -/
def IntType.bits : IntType → Nat
  | .u8 => 8
  | .u16 => 16
  | .u32 => 32
  | .u64 => 64

/-- Width in bits of `int`. -/
def INT_BITS : Nat := 32

/-- The value of a plain `char` that holds the byte `b`: the byte itself where `char` is
unsigned, and the two's complement reading of the byte where `char` is signed. -/
def charValue (charSigned : Bool) (b : Byte) : Int :=
  if charSigned && decide (128 ≤ b.val) then (b.val : Int) - 256 else (b.val : Int)

/-- An operand of an arithmetic expression after integral promotion: either an `int`, or a
value of an unsigned type that is at least as wide as `int`. -/
inductive Operand
  | sint (v : Int)
  | uint (bits : Nat) (v : Nat)
  deriving DecidableEq, Repr

/-- Result of an `int` computation: defined only when it is representable in `int`. -/
def checkedInt (v : Int) : Option Operand :=
  if -(2 : Int) ^ (INT_BITS - 1) ≤ v ∧ v < (2 : Int) ^ (INT_BITS - 1) then some (.sint v)
  else none

/-- Integral promotion of a value `h` of type `IntType`. -/
def promote (I : IntType) (h : Nat) : Operand :=
  if I.bits < INT_BITS then .sint (h : Int) else .uint I.bits h

/-- Width of the unsigned type of an operand (`0` for `int`). -/
def Operand.unsignedBits : Operand → Nat
  | .sint _ => 0
  | .uint b _ => b

/-- Conversion of an operand to the unsigned type of width `b`. -/
def Operand.toUnsigned (b : Nat) : Operand → Nat
  | .sint v => (v % (2 : Int) ^ b).toNat
  | .uint _ v => v % 2 ^ b

/-- The expression `x << k`. -/
def Operand.shl (x : Operand) (k : Nat) : Option Operand :=
  match x with
  | .sint v => if 0 ≤ v then checkedInt (v * (2 : Int) ^ k) else none
  | .uint b v => some (.uint b ((v * 2 ^ k) % 2 ^ b))

/-- The expression `x - y` after the usual arithmetic conversions. -/
def Operand.sub (x y : Operand) : Option Operand :=
  match x, y with
  | .sint a, .sint c => checkedInt (a - c)
  | _, _ =>
    let b := max x.unsignedBits y.unsignedBits
    some (.uint b ((x.toUnsigned b + 2 ^ b - y.toUnsigned b) % 2 ^ b))

/-- The expression `x + y` after the usual arithmetic conversions. -/
def Operand.add (x y : Operand) : Option Operand :=
  match x, y with
  | .sint a, .sint c => checkedInt (a + c)
  | _, _ =>
    let b := max x.unsignedBits y.unsignedBits
    some (.uint b ((x.toUnsigned b + y.toUnsigned b) % 2 ^ b))

/-- The macro `MUL_127(x)`, that is `(((x) << 7) - (x))`. -/
def MUL_127 (x : Operand) : Option Operand :=
  (x.shl 7).bind fun s => s.sub x

/-- The conversion `static_cast<IntType>(x)`. -/
def static_cast (I : IntType) (x : Operand) : Nat :=
  x.toUnsigned I.bits

/-- The loop body `h = static_cast<IntType>(MUL_127(h) + c)` for a character `c`. -/
def hashStep (I : IntType) (charSigned : Bool) (h : Nat) (c : Byte) : Option Nat :=
  (MUL_127 (promote I h)).bind fun m =>
    (m.add (.sint (charValue charSigned c))).map (static_cast I)

/-- How a run of a hasher ends. -/
inductive Outcome
  | ok (h : Nat)
  | overflow
  | outOfBounds
  | outOfFuel
  deriving DecidableEq, Repr

/-- Modelled from the spec: the fixed-capacity string `static_string<tSize>` of
`wlib/strings/String.h`, which is not among the sources: a buffer bounded by the capacity
`tSize` and an explicit tracked length. -/
structure static_string (tSize : Nat) where
  buffer : List Byte
  len : Nat
  buffer_size : buffer.length = tSize
  len_le : len ≤ tSize

/-- Modelled from the spec: `static_string::length()`, the current length. -/
def static_string.length {tSize : Nat} (s : static_string tSize) : Nat :=
  s.len

/-- Modelled from the spec: `static_string::operator[]`, indexed byte access. -/
def static_string.at {tSize : Nat} (s : static_string tSize) (pos : Nat) : Option Byte :=
  s.buffer[pos]?

/-- The characters of a fixed-capacity string: the first `length()` bytes of its buffer. -/
def static_string.chars {tSize : Nat} (s : static_string tSize) : List Byte :=
  s.buffer.take s.len

/-- The `for` loop of `hash_static_string`, from position `pos` with accumulator `h`. -/
def hash_static_string_loop (I : IntType) (charSigned : Bool) {tSize : Nat}
    (s : static_string tSize) : Nat → Nat → Nat → Outcome
  | 0, _, _ => .outOfFuel
  | fuel + 1, pos, h =>
    if pos < s.length then
      match s.at pos with
      | none => .outOfBounds
      | some c =>
        match hashStep I charSigned h c with
        | none => .overflow
        | some h1 => hash_static_string_loop I charSigned s fuel (pos + 1) h1
    else .ok h

/-- The function `hash_static_string<IntType, tSize>`. -/
def hash_static_string (I : IntType) (charSigned : Bool) {tSize : Nat}
    (s : static_string tSize) : Outcome :=
  hash_static_string_loop I charSigned s (s.length + 1) 0 0

/-- A run of `hash_string`: how it ends and the buffer indices at which `*s` was
evaluated, in order. -/
structure Run where
  outcome : Outcome
  reads : List Nat
  deriving DecidableEq, Repr

/-- The `for` loop of `hash_string` over the buffer `buf`, with the pointer `s` at index `s`
and accumulator `h`.  The loop condition evaluates `*s`; when it is non-null the body
evaluates `*s` again. -/
def hash_string_loop (I : IntType) (charSigned : Bool) (buf : List Byte) :
    Nat → Nat → Nat → Run
  | 0, _, _ => ⟨.outOfFuel, []⟩
  | fuel + 1, s, h =>
    match buf[s]? with
    | none => ⟨.outOfBounds, [s]⟩
    | some c =>
      if c ≠ 0 then
        match hashStep I charSigned h c with
        | none => ⟨.overflow, [s, s]⟩
        | some h1 =>
          let r := hash_string_loop I charSigned buf fuel (s + 1) h1
          ⟨r.outcome, s :: s :: r.reads⟩
      else ⟨.ok h, [s]⟩

/-- The function `hash_string<IntType>` applied to a pointer to the first byte of `buf`,
together with its reads. -/
def hash_string_run (I : IntType) (charSigned : Bool) (buf : List Byte) : Run :=
  hash_string_loop I charSigned buf (buf.length + 1) 0 0

/-- The function `hash_string<IntType>` applied to a pointer to the first byte of `buf`. -/
def hash_string (I : IntType) (charSigned : Bool) (buf : List Byte) : Outcome :=
  (hash_string_run I charSigned buf).outcome

/-- Modelled from the spec: the growable string `dynamic_string` of `wlib/strings/String.h`,
which is not among the sources: a character sequence that is handed out as a
sentinel-terminated C string. -/
structure dynamic_string where
  chars : List Byte

/-- Modelled from the spec: `dynamic_string::c_str()`, the characters followed by the
terminating null character. -/
def dynamic_string.c_str (str : dynamic_string) : List Byte :=
  str.chars ++ [0]

/-- The specialization `hash<static_string<tSize>, IntType>::operator()`. -/
def hash_static (I : IntType) (charSigned : Bool) {tSize : Nat} (s : static_string tSize) :
    Outcome :=
  hash_static_string I charSigned s

/-- The specialization `hash<dynamic_string, IntType>::operator()`. -/
def hash_dynamic (I : IntType) (charSigned : Bool) (str : dynamic_string) : Outcome :=
  hash_string I charSigned str.c_str

/-- The specialization `hash<char *, IntType>::operator()`. -/
def hash_char_ptr (I : IntType) (charSigned : Bool) (s : List Byte) : Outcome :=
  hash_string I charSigned s

/-- The specialization `hash<const char *, IntType>::operator()`. -/
def hash_const_char_ptr (I : IntType) (charSigned : Bool) (s : List Byte) : Outcome :=
  hash_string I charSigned s

/-- The primary template `hash<Key, IntType>::operator()` on an integer or character key
with value `key`: `static_cast<IntType>(key)`, the conversion to the unsigned type. -/
def hash_default (I : IntType) (key : Int) : Nat :=
  (key % (2 : Int) ^ I.bits).toNat

/-- An integer or character key type: its signedness and its width in bits. -/
structure KeyType where
  signed : Bool
  bits : Nat
  deriving DecidableEq, Repr

/-- The values of a key type: `[-2 ^ (bits - 1), 2 ^ (bits - 1))` when signed and
`[0, 2 ^ bits)` when unsigned. -/
def KeyType.holds (K : KeyType) (k : Int) : Prop :=
  if K.signed then -(2 : Int) ^ (K.bits - 1) ≤ k ∧ k < (2 : Int) ^ (K.bits - 1)
  else 0 ≤ k ∧ k < (2 : Int) ^ K.bits

instance (K : KeyType) (k : Int) : Decidable (K.holds k) := by
  unfold KeyType.holds
  exact inferInstance

/-- The bit pattern that stores the value `k` in a key type (two's complement when signed),
read as a natural number. -/
def KeyType.pattern (K : KeyType) (k : Int) : Nat :=
  (k % (2 : Int) ^ K.bits).toNat

/-- Truncation or extension of a key to `w` bits in the words of the specification: the high
bits are cut off when the key type is at least `w` bits wide; otherwise the pattern is
sign-extended (a signed key with its sign bit set gets ones in the new high bits) or
zero-extended. -/
def truncateOrExtend (K : KeyType) (w : Nat) (k : Int) : Nat :=
  if w ≤ K.bits then K.pattern k % 2 ^ w
  else if K.signed && decide (2 ^ (K.bits - 1) ≤ K.pattern k) then
    K.pattern k + (2 ^ w - 2 ^ K.bits)
  else K.pattern k

/-- The loop body in the words of the specification: `h := (h * 127 + c) mod 2 ^ w`. -/
def recurrenceStep (w : Nat) (h : Nat) (c : Int) : Nat :=
  (((h : Int) * 127 + c) % (2 : Int) ^ w).toNat

/-- The recurrence in the words of the specification: start at `0` and set
`h := (h * 127 + c) mod 2 ^ w` for each character value in order. -/
def recurrence (w : Nat) (cs : List Int) : Nat :=
  cs.foldl (recurrenceStep w) 0

/-- Horner evaluation of the base-127 polynomial over the integers, with no reduction. -/
def polynomial (cs : List Int) : Int :=
  cs.foldl (fun acc c => acc * 127 + c) 0

/-- The base-127 positional sum written out: `c_i` has weight `127 ^ (n - 1 - i)`. -/
def weightedSum (cs : List Int) : Int :=
  ((List.range cs.length).map fun i => cs.getD i 0 * (127 : Int) ^ (cs.length - 1 - i)).sum

/-- A fixed-capacity string of capacity `tSize` holding the characters `cs`, the rest of the
buffer filled with `fill`. -/
def static_string.ofList (tSize : Nat) (cs : List Byte) (fill : Byte)
    (h : cs.length ≤ tSize) : static_string tSize where
  buffer := cs ++ List.replicate (tSize - cs.length) fill
  len := cs.length
  buffer_size := by simp; omega
  len_le := h

/-- The indices at which `hash_string` evaluates `*s` when it starts at index `d` and the first
null byte is `n` positions further: each earlier index twice, the index of the null once. -/
def expectedReads : Nat → Nat → List Nat
  | d, 0 => [d]
  | d, n + 1 => d :: d :: expectedReads (d + 1) n

/-! ## The loop body -/

theorem charValue_range (sc : Bool) (c : Byte) :
    -128 ≤ charValue sc c ∧ charValue sc c ≤ 255 := by
  have := c.isLt
  unfold charValue
  cases sc <;> simp <;> (try split) <;> omega

theorem checkedInt_of_range (v : Int) (h1 : -2147483648 ≤ v) (h2 : v < 2147483648) :
    checkedInt v = some (.sint v) := by
  unfold checkedInt
  rw [if_pos]
  simp only [INT_BITS]
  norm_num
  exact ⟨h1, h2⟩

theorem MUL_127_unfold (x : Operand) : MUL_127 x = (x.shl 7).bind fun s => s.sub x := rfl

theorem hashStep_unfold (I : IntType) (sc : Bool) (h : Nat) (c : Byte) :
    hashStep I sc h c = (MUL_127 (promote I h)).bind fun m =>
      (m.add (.sint (charValue sc c))).map (static_cast I) := rfl

theorem shl_sint (v : Int) (k : Nat) (hv : 0 ≤ v) :
    Operand.shl (.sint v) k = checkedInt (v * (2 : Int) ^ k) := by
  simp only [Operand.shl]
  rw [if_pos hv]

theorem shl_uint (b v k : Nat) :
    Operand.shl (.uint b v) k = some (.uint b ((v * 2 ^ k) % 2 ^ b)) := by
  simp only [Operand.shl]

theorem sub_sint (a c : Int) : Operand.sub (.sint a) (.sint c) = checkedInt (a - c) := by
  simp only [Operand.sub]

theorem sub_uint (b v u : Nat) :
    Operand.sub (.uint b v) (.uint b u)
      = some (.uint b ((v % 2 ^ b + 2 ^ b - u % 2 ^ b) % 2 ^ b)) := by
  simp [Operand.sub, Operand.unsignedBits, Operand.toUnsigned]

theorem add_sint (a c : Int) : Operand.add (.sint a) (.sint c) = checkedInt (a + c) := by
  simp only [Operand.add]

theorem add_uint_sint (b v : Nat) (c : Int) :
    Operand.add (.uint b v) (.sint c)
      = some (.uint b ((v % 2 ^ b + (c % (2 : Int) ^ b).toNat) % 2 ^ b)) := by
  simp [Operand.add, Operand.unsignedBits, Operand.toUnsigned]

theorem promote_narrow (I : IntType) (h : Nat) (hI : I.bits < INT_BITS) :
    promote I h = .sint (h : Int) := by
  unfold promote
  rw [if_pos hI]

theorem promote_wide (I : IntType) (h : Nat) (hI : ¬ I.bits < INT_BITS) :
    promote I h = .uint I.bits h := by
  unfold promote
  rw [if_neg hI]

theorem static_cast_sint (I : IntType) (v : Int) :
    static_cast I (.sint v) = (v % (2 : Int) ^ I.bits).toNat := rfl

theorem static_cast_uint (I : IntType) (b v : Nat) :
    static_cast I (.uint b v) = v % 2 ^ I.bits := rfl

/-- In `int`, `MUL_127` of a value below `2 ^ 16` is `127` times the value, with no overflow. -/
theorem MUL_127_sint (h : Nat) (hh : h < 65536) :
    MUL_127 (.sint (h : Int)) = some (.sint (127 * (h : Int))) := by
  have e1 : (h : Int) * (2 : Int) ^ 7 = 128 * (h : Int) := by norm_num; ring
  have e2 : 128 * (h : Int) - (h : Int) = 127 * (h : Int) := by ring
  rw [MUL_127_unfold, shl_sint _ _ (by omega), e1, checkedInt_of_range _ (by omega) (by omega),
    Option.some_bind, sub_sint, e2, checkedInt_of_range _ (by omega) (by omega)]

theorem MUL_127_uint (b h : Nat) :
    MUL_127 (.uint b h)
      = some (.uint b ((h * 2 ^ 7 % 2 ^ b % 2 ^ b + 2 ^ b - h % 2 ^ b) % 2 ^ b)) := by
  rw [MUL_127_unfold, shl_uint, Option.some_bind, sub_uint]

/-- The loop body on a narrow hash type: computed in `int` without overflow, then cast. -/
theorem hashStep_narrow (I : IntType) (sc : Bool) (h : Nat) (c : Byte)
    (hI : I.bits < INT_BITS) (hh : h < 65536) :
    hashStep I sc h c
      = some ((((h : Int) * 127 + charValue sc c) % (2 : Int) ^ I.bits).toNat) := by
  obtain ⟨hc1, hc2⟩ := charValue_range sc c
  have e : 127 * (h : Int) = (h : Int) * 127 := by ring
  rw [hashStep_unfold, promote_narrow I h hI, MUL_127_sint h hh, Option.some_bind, add_sint,
    checkedInt_of_range _ (by omega) (by omega), Option.map_some', static_cast_sint, e]

/-- Wrapping arithmetic modulo `M` of the loop body agrees with the integer formula. -/
theorem wrap_step (M h : Nat) (cv : Int) (hM : 0 < M) :
    ((h * 2 ^ 7 % M % M + M - h % M) % M % M + (cv % (M : Int)).toNat) % M % M
      = (((h : Int) * 127 + cv) % (M : Int)).toNat := by
  have hM' : (M : Int) ≠ 0 := by omega
  have e7 : (2 : Nat) ^ 7 = 128 := by norm_num
  rw [e7]
  have hb : h % M ≤ h * 128 % M % M + M := by
    have := Nat.mod_lt h hM
    omega
  apply Int.ofNat.inj
  simp only [Int.ofNat_eq_coe]
  rw [Int.toNat_of_nonneg (Int.emod_nonneg _ hM')]
  push_cast [Nat.cast_sub hb, Int.toNat_of_nonneg (Int.emod_nonneg cv hM')]
  rw [Int.emod_emod]
  have e1 : (((h : Int) * 128 % M % M + M - h % M) % M % M) ≡ (h : Int) * 127 [ZMOD M] := by
    have a1 : ((h : Int) * 128 % M % M) ≡ (h : Int) * 128 [ZMOD M] := by
      rw [Int.emod_emod]; exact Int.mod_modEq _ _
    have a2 : ((h : Int) % M) ≡ (h : Int) [ZMOD M] := Int.mod_modEq _ _
    have a3 : (M : Int) ≡ 0 [ZMOD M] := by simp [Int.ModEq]
    rw [Int.emod_emod]
    refine (Int.mod_modEq _ _).trans ?_
    have := (a1.add a3).sub a2
    refine this.trans ?_
    have e : (h : Int) * 128 + 0 - h = h * 127 := by ring
    rw [e]
  have e2 : (cv % (M : Int)) ≡ cv [ZMOD M] := Int.mod_modEq _ _
  exact e1.add e2

/-- The loop body on a hash type at least as wide as `int`: unsigned wrapping arithmetic. -/
theorem hashStep_wide (I : IntType) (sc : Bool) (h : Nat) (c : Byte) (hI : ¬ I.bits < INT_BITS) :
    hashStep I sc h c
      = some ((((h : Int) * 127 + charValue sc c) % (2 : Int) ^ I.bits).toNat) := by
  have hp : ((2 : Int) ^ I.bits) = ((2 ^ I.bits : Nat) : Int) := by push_cast; rfl
  rw [hashStep_unfold, promote_wide I h hI, MUL_127_uint, Option.some_bind,
    add_uint_sint, Option.map_some', static_cast_uint, hp,
    wrap_step (2 ^ I.bits) h (charValue sc c) (Nat.pos_pow_of_pos _ (by decide))]

theorem hashStep_eq (I : IntType) (sc : Bool) (h : Nat) (c : Byte) (hh : h < 2 ^ I.bits) :
    hashStep I sc h c
      = some ((((h : Int) * 127 + charValue sc c) % (2 : Int) ^ I.bits).toNat) := by
  by_cases hI : I.bits < INT_BITS
  · refine hashStep_narrow I sc h c hI ?_
    cases I <;> simp [IntType.bits, INT_BITS] at hI hh ⊢ <;> omega
  · exact hashStep_wide I sc h c hI

/-! ## The loops -/

theorem recurrenceStep_lt (w h : Nat) (c : Int) : recurrenceStep w h c < 2 ^ w := by
  have hp : (0 : Int) < (2 : Int) ^ w := by positivity
  have h1 := Int.emod_lt_of_pos ((h : Int) * 127 + c) hp
  have h2 := Int.emod_nonneg ((h : Int) * 127 + c) (ne_of_gt hp)
  unfold recurrenceStep
  zify
  rw [Int.toNat_of_nonneg h2]
  exact_mod_cast h1

theorem hashStep_recurrence (I : IntType) (sc : Bool) (h : Nat) (c : Byte)
    (hh : h < 2 ^ I.bits) :
    hashStep I sc h c = some (recurrenceStep I.bits h (charValue sc c)) :=
  hashStep_eq I sc h c hh

theorem static_string_chars_length {tSize : Nat} (s : static_string tSize) :
    s.chars.length = s.len := by
  unfold static_string.chars
  rw [List.length_take, s.buffer_size]
  exact Nat.min_eq_left s.len_le

theorem static_string_at {tSize : Nat} (s : static_string tSize) (pos : Nat) (hp : pos < s.len) :
    s.at pos = s.chars[pos]? := by
  unfold static_string.at static_string.chars
  rw [List.getElem?_take_of_lt hp]

/-- The loop of `hash_static_string` from position `pos` folds the remaining characters. -/
theorem hash_static_string_loop_eq (I : IntType) (sc : Bool) {tSize : Nat}
    (s : static_string tSize) :
    ∀ (fuel pos h : Nat), s.len - pos < fuel → pos ≤ s.len → h < 2 ^ I.bits →
      hash_static_string_loop I sc s fuel pos h
        = .ok (((s.chars.drop pos).map (charValue sc)).foldl (recurrenceStep I.bits) h) := by
  intro fuel
  induction fuel with
  | zero => intro pos h hf; omega
  | succ fuel ih =>
    intro pos h hf hp hh
    rw [hash_static_string_loop]
    by_cases hlt : pos < s.len
    · have hlen : pos < s.chars.length := by rw [static_string_chars_length]; exact hlt
      rw [if_pos (show pos < s.length from hlt), static_string_at s pos hlt,
        List.getElem?_eq_getElem hlen]
      simp only []
      rw [hashStep_recurrence I sc h _ hh]
      simp only []
      rw [ih (pos + 1) _ (by omega) (by omega) (recurrenceStep_lt _ _ _),
        List.drop_eq_getElem_cons hlen]
      rfl
    · have hge : s.chars.length ≤ pos := by rw [static_string_chars_length]; omega
      rw [if_neg (show ¬ pos < s.length from hlt), List.drop_eq_nil_of_le hge]
      rfl

theorem expectedReads_mem (n : Nat) :
    ∀ (d j : Nat), j ∈ expectedReads d n ↔ d ≤ j ∧ j ≤ d + n := by
  induction n with
  | zero => intro d j; simp [expectedReads]; omega
  | succ n ih =>
    intro d j
    simp only [expectedReads, List.mem_cons, ih]
    omega

/-- The loop of `hash_string` with the pointer after `done`, non-null bytes `pre` ahead and
then a null byte: it folds `pre`, stops at the null byte and reads nothing beyond it. -/
theorem hash_string_loop_eq (I : IntType) (sc : Bool) (rest : List Byte) :
    ∀ (pre done : List Byte) (fuel h : Nat), (∀ c ∈ pre, c ≠ 0) → pre.length < fuel →
      h < 2 ^ I.bits →
      hash_string_loop I sc (done ++ pre ++ 0 :: rest) fuel done.length h
        = ⟨.ok ((pre.map (charValue sc)).foldl (recurrenceStep I.bits) h),
            expectedReads done.length pre.length⟩ := by
  intro pre
  induction pre with
  | nil =>
    intro done fuel h _ hf _
    obtain ⟨fuel, rfl⟩ : ∃ f, fuel = f + 1 := ⟨fuel - 1, by simp at hf; omega⟩
    rw [hash_string_loop]
    have hget : (done ++ [] ++ (0 : Byte) :: rest)[done.length]? = some 0 := by
      rw [List.append_nil, List.getElem?_append_right (le_refl _), Nat.sub_self]
      exact List.getElem?_cons_zero
    rw [hget]
    simp [expectedReads]
  | cons c pre ih =>
    intro done fuel h hnz hf hh
    obtain ⟨fuel, rfl⟩ : ∃ f, fuel = f + 1 := ⟨fuel - 1, by simp at hf; omega⟩
    have hc : c ≠ 0 := hnz c (List.mem_cons_self _ _)
    have hget : (done ++ c :: pre ++ (0 : Byte) :: rest)[done.length]? = some c := by
      rw [List.append_assoc, List.getElem?_append_right (le_refl _), Nat.sub_self]
      exact List.getElem?_cons_zero
    have hbuf : done ++ c :: pre ++ (0 : Byte) :: rest = (done ++ [c]) ++ pre ++ 0 :: rest := by
      simp
    rw [hash_string_loop, hget]
    simp only []
    rw [if_pos hc, hashStep_recurrence I sc h c hh]
    simp only []
    have := ih (done ++ [c]) fuel (recurrenceStep I.bits h (charValue sc c))
      (fun x hx => hnz x (List.mem_cons_of_mem _ hx)) (by simp at hf; omega)
      (recurrenceStep_lt _ _ _)
    rw [List.length_append, List.length_singleton] at this
    rw [hbuf, this]
    simp [expectedReads]

/-- The function `hash_static_string` returns the recurrence over the characters. -/
theorem hash_static_string_eq (I : IntType) (sc : Bool) {tSize : Nat} (s : static_string tSize) :
    hash_static_string I sc s = .ok (recurrence I.bits (s.chars.map (charValue sc))) := by
  unfold hash_static_string static_string.length
  rw [hash_static_string_loop_eq I sc s (s.len + 1) 0 0 (by omega) (by omega) (by positivity)]
  rfl

/-- The run of `hash_string` on non-null bytes followed by a null byte. -/
theorem hash_string_run_eq (I : IntType) (sc : Bool) (pre rest : List Byte)
    (hpre : ∀ c ∈ pre, c ≠ 0) :
    hash_string_run I sc (pre ++ 0 :: rest)
      = ⟨.ok (recurrence I.bits (pre.map (charValue sc))), expectedReads 0 pre.length⟩ := by
  unfold hash_string_run
  have := hash_string_loop_eq I sc rest pre [] ((pre ++ 0 :: rest).length + 1) 0 hpre
    (by simp; omega) (by positivity)
  simp only [List.nil_append, List.length_nil] at this
  rw [this]
  rfl

theorem hash_string_eq (I : IntType) (sc : Bool) (pre rest : List Byte)
    (hpre : ∀ c ∈ pre, c ≠ 0) :
    hash_string I sc (pre ++ 0 :: rest) = .ok (recurrence I.bits (pre.map (charValue sc))) := by
  unfold hash_string
  rw [hash_string_run_eq I sc pre rest hpre]

/-- A buffer that contains a null byte is the bytes before the first null byte, the null
byte, and the bytes after it. -/
theorem split_at_null (buf : List Byte) (h0 : (0 : Byte) ∈ buf) :
    buf = buf.takeWhile (fun c => decide (c ≠ 0)) ++ 0 ::
      buf.drop ((buf.takeWhile (fun c => decide (c ≠ 0))).length + 1) := by
  induction buf with
  | nil => simp at h0
  | cons c buf ih =>
    by_cases hc : c = 0
    · subst hc
      simp
    · have h1 : (0 : Byte) ∈ buf := by
        rcases List.mem_cons.mp h0 with h | h
        · exact absurd h.symm hc
        · exact h
      have := ih h1
      rw [List.takeWhile_cons_of_pos (by simpa using hc)]
      simp only [List.cons_append, List.length_cons, List.drop_succ_cons]
      exact congrArg _ this

theorem takeWhile_ne_null (buf : List Byte) :
    ∀ c ∈ buf.takeWhile (fun c => decide (c ≠ 0)), c ≠ 0 := by
  intro c hc
  simpa using List.mem_takeWhile_imp hc

/-- The length of the bytes before the first null byte is the index of the first null byte. -/
theorem indexOf_null (pre rest : List Byte) (hpre : ∀ c ∈ pre, c ≠ 0) :
    (pre ++ (0 : Byte) :: rest).indexOf 0 = pre.length := by
  have hnot : (0 : Byte) ∉ pre := fun h => hpre 0 h rfl
  rw [List.indexOf_append_of_not_mem hnot, List.indexOf_cons_self]
  rfl

/-- The loop of `hash_string` from the start of a buffer with a null byte gives the same run
for every amount of fuel above the index of the first null byte. -/
theorem hash_string_loop_fuel (I : IntType) (sc : Bool) (pre rest : List Byte)
    (hpre : ∀ c ∈ pre, c ≠ 0) (fuel : Nat) (hf : pre.length < fuel) :
    hash_string_loop I sc (pre ++ 0 :: rest) fuel 0 0
      = hash_string_run I sc (pre ++ 0 :: rest) := by
  have := hash_string_loop_eq I sc rest pre [] fuel 0 hpre hf (by positivity)
  simp only [List.nil_append, List.length_nil] at this
  rw [this, hash_string_run_eq I sc pre rest hpre]
  rfl

/-! ## The base-127 polynomial -/

theorem polynomial_foldl (cs : List Int) :
    ∀ a : Int, cs.foldl (fun acc c => acc * 127 + c) a
      = a * (127 : Int) ^ cs.length + polynomial cs := by
  induction cs with
  | nil => intro a; simp [polynomial]
  | cons c cs ih =>
    intro a
    have h1 := ih (a * 127 + c)
    have h2 := ih (0 * 127 + c)
    simp only [polynomial, List.foldl_cons, List.length_cons] at h1 h2 ⊢
    rw [h1, h2]
    ring

theorem weightedSum_cons (c : Int) (cs : List Int) :
    weightedSum (c :: cs) = c * (127 : Int) ^ cs.length + weightedSum cs := by
  unfold weightedSum
  rw [List.length_cons, List.range_succ_eq_map, List.map_cons, List.sum_cons, List.map_map]
  congr 1
  congr 1
  apply List.map_congr_left
  intro i _
  simp only [Function.comp, List.getD_cons_succ]
  congr 2
  omega

/-- Horner evaluation and the positional sum are the same integer. -/
theorem polynomial_eq_weightedSum (cs : List Int) : polynomial cs = weightedSum cs := by
  induction cs with
  | nil => simp [polynomial, weightedSum]
  | cons c cs ih =>
    rw [weightedSum_cons, ← ih]
    have := polynomial_foldl cs (0 * 127 + c)
    simp only [polynomial, List.foldl_cons] at this ⊢
    rw [this]
    ring

theorem recurrence_foldl_modEq (w : Nat) (cs : List Int) :
    ∀ (h : Nat) (a : Int), (h : Int) ≡ a [ZMOD (2 : Int) ^ w] →
      ((cs.foldl (recurrenceStep w) h : Nat) : Int)
        ≡ cs.foldl (fun acc c => acc * 127 + c) a [ZMOD (2 : Int) ^ w] := by
  induction cs with
  | nil => intro h a hha; simpa using hha
  | cons c cs ih =>
    intro h a hha
    simp only [List.foldl_cons]
    apply ih
    have hp : (0 : Int) < (2 : Int) ^ w := by positivity
    unfold recurrenceStep
    rw [Int.toNat_of_nonneg (Int.emod_nonneg _ (ne_of_gt hp))]
    exact (Int.mod_modEq _ _).trans ((hha.mul_right 127).add_right c)

theorem recurrence_lt (w : Nat) (cs : List Int) : recurrence w cs < 2 ^ w := by
  unfold recurrence
  induction cs using List.reverseRecOn with
  | nil => simp
  | append_singleton cs c _ =>
    rw [List.foldl_append]
    exact recurrenceStep_lt _ _ _

/-- Reducing after every step gives the polynomial reduced once at the end. -/
theorem recurrence_eq_polynomial (w : Nat) (cs : List Int) :
    recurrence w cs = (weightedSum cs % (2 : Int) ^ w).toNat := by
  have h1 := recurrence_foldl_modEq w cs 0 0 (by rfl)
  have h2 := recurrence_lt w cs
  rw [← polynomial_eq_weightedSum]
  have hp : (0 : Int) < (2 : Int) ^ w := by positivity
  have h3 : ((recurrence w cs : Nat) : Int) % (2 : Int) ^ w = (recurrence w cs : Nat) := by
    apply Int.emod_eq_of_lt (by positivity)
    exact_mod_cast h2
  have h4 : polynomial cs % (2 : Int) ^ w = (recurrence w cs : Nat) := by
    rw [← h3]
    exact h1.symm
  rw [h4, Int.toNat_natCast]

/-! ## The default hash -/

theorem emod_of_neg (k M : Int) (h1 : -M ≤ k) (h2 : k < 0) : k % M = k + M := by
  have h : (k + M) % M = k + M := Int.emod_eq_of_lt (by omega) (by omega)
  rw [← h, Int.add_emod_self]

theorem hash_default_cast (I : IntType) (k : Int) :
    ((hash_default I k : Nat) : Int) = k % (2 : Int) ^ I.bits := by
  unfold hash_default
  exact Int.toNat_of_nonneg (Int.emod_nonneg _ (by positivity))

theorem pattern_cast (K : KeyType) (k : Int) :
    ((K.pattern k : Nat) : Int) = k % (2 : Int) ^ K.bits := by
  unfold KeyType.pattern
  exact Int.toNat_of_nonneg (Int.emod_nonneg _ (by positivity))

/-- The numeric conversion is truncation of the stored pattern, or its sign or zero
extension. -/
theorem hash_default_truncateOrExtend (I : IntType) (K : KeyType) (k : Int)
    (hb : 0 < K.bits) (hk : K.holds k) :
    hash_default I k = truncateOrExtend K I.bits k := by
  have hW : (0 : Int) < (2 : Int) ^ I.bits := by positivity
  apply Int.ofNat.inj
  simp only [Int.ofNat_eq_coe]
  rw [hash_default_cast]
  unfold truncateOrExtend
  by_cases hle : I.bits ≤ K.bits
  · rw [if_pos hle]
    push_cast
    rw [pattern_cast, Int.emod_emod_of_dvd _ (pow_dvd_pow 2 hle)]
  · rw [if_neg hle]
    have hlt : K.bits < I.bits := by omega
    have hBW : (2 : Int) ^ K.bits ≤ (2 : Int) ^ I.bits :=
      pow_le_pow_right₀ (by norm_num) (le_of_lt hlt)
    have hBW2 : (2 : Nat) ^ K.bits ≤ (2 : Nat) ^ I.bits :=
      Nat.pow_le_pow_right (by norm_num) (le_of_lt hlt)
    have hhalf : (2 : Int) ^ K.bits = 2 * (2 : Int) ^ (K.bits - 1) := by
      conv_lhs => rw [show K.bits = (K.bits - 1) + 1 by omega]
      rw [pow_succ]
      ring
    have hhalfpos : (0 : Int) < (2 : Int) ^ (K.bits - 1) := by positivity
    have hpat := pattern_cast K k
    have hcond : (2 ^ (K.bits - 1) ≤ K.pattern k)
        ↔ ((2 : Int) ^ (K.bits - 1) ≤ ((K.pattern k : Nat) : Int)) := by
      constructor
      · intro h; exact_mod_cast h
      · intro h; exact_mod_cast h
    unfold KeyType.holds at hk
    by_cases hs : K.signed = true
    · rw [if_pos hs] at hk
      by_cases hneg : k < 0
      · have e1 : k % (2 : Int) ^ K.bits = k + (2 : Int) ^ K.bits :=
          emod_of_neg _ _ (by omega) hneg
        have e2 : k % (2 : Int) ^ I.bits = k + (2 : Int) ^ I.bits :=
          emod_of_neg _ _ (by omega) hneg
        rw [e1] at hpat
        rw [if_pos (by
          rw [Bool.and_eq_true, decide_eq_true_eq, hcond]
          exact ⟨hs, by omega⟩)]
        push_cast [Nat.cast_sub hBW2]
        rw [hpat, e2]
        ring
      · have e1 : k % (2 : Int) ^ K.bits = k := Int.emod_eq_of_lt (by omega) (by omega)
        have e2 : k % (2 : Int) ^ I.bits = k := Int.emod_eq_of_lt (by omega) (by omega)
        rw [e1] at hpat
        rw [if_neg (by
          rw [Bool.and_eq_true, decide_eq_true_eq, hcond]
          intro h
          omega)]
        rw [hpat, e2]
    · rw [if_neg hs] at hk
      have e1 : k % (2 : Int) ^ K.bits = k := Int.emod_eq_of_lt hk.1 hk.2
      have e2 : k % (2 : Int) ^ I.bits = k := Int.emod_eq_of_lt hk.1 (by omega)
      rw [e1] at hpat
      rw [if_neg (by
        rw [Bool.and_eq_true]
        intro h
        exact hs h.1)]
      rw [hpat, e2]

/-! ## Dependence on the characters only -/

/-- Two fixed-capacity strings with the same length and the same byte at every position below
it have the same characters, whatever their capacities and the rest of their buffers. -/
theorem static_string_chars_ext {n1 n2 : Nat} (s1 : static_string n1) (s2 : static_string n2)
    (hlen : s1.length = s2.length) (hat : ∀ pos, pos < s1.length → s1.at pos = s2.at pos) :
    s1.chars = s2.chars := by
  have hl : s1.len = s2.len := hlen
  apply List.ext_getElem?
  intro n
  by_cases hn : n < s1.len
  · rw [← static_string_at s1 n hn, ← static_string_at s2 n (by omega)]
    exact hat n hn
  · rw [List.getElem?_eq_none (by rw [static_string_chars_length]; omega),
      List.getElem?_eq_none (by rw [static_string_chars_length]; omega)]

/-- On a narrow or a wide hash type alike, `MUL_127(h)` cast back to the hash type is
`127 * h` modulo `2 ^ w`. -/
theorem MUL_127_cast (I : IntType) (h : Nat) (hh : h < 2 ^ I.bits) :
    ∃ m, MUL_127 (promote I h) = some m ∧ static_cast I m = (127 * h) % 2 ^ I.bits := by
  by_cases hI : I.bits < INT_BITS
  · have h16 : h < 65536 := by
      cases I <;> simp [IntType.bits, INT_BITS] at hI hh ⊢ <;> omega
    refine ⟨.sint (127 * (h : Int)), ?_, ?_⟩
    · rw [promote_narrow I h hI, MUL_127_sint h h16]
    · rw [static_cast_sint]
      apply Int.ofNat.inj
      simp only [Int.ofNat_eq_coe]
      rw [Int.toNat_of_nonneg (Int.emod_nonneg _ (by positivity))]
      push_cast
      rfl
  · refine ⟨_, by rw [promote_wide I h hI, MUL_127_uint], ?_⟩
    rw [static_cast_uint]
    have hM : 0 < 2 ^ I.bits := Nat.pos_pow_of_pos _ (by decide)
    have hw := wrap_step (2 ^ I.bits) h 0 hM
    simp only [Int.zero_emod, Int.toNat_zero, Nat.add_zero, add_zero, Nat.mod_mod] at hw
    simp only [Nat.mod_mod]
    rw [hw]
    apply Int.ofNat.inj
    simp only [Int.ofNat_eq_coe]
    rw [Int.toNat_of_nonneg (Int.emod_nonneg _ (by positivity))]
    push_cast
    rw [mul_comm]

/-! ## Collisions -/

theorem charValue_injective (sc : Bool) : Function.Injective (charValue sc) := by
  intro a b hab
  have ha := a.isLt
  have hb := b.isLt
  apply Fin.ext
  unfold charValue at hab
  cases sc
  · simp at hab
    omega
  · simp only [Bool.true_and, decide_eq_true_eq] at hab
    split at hab <;> split at hab <;> omega

theorem charValue_of_le (sc : Bool) (b : Byte) (hb : b.val ≤ 126) :
    charValue sc b = (b.val : Int) := by
  unfold charValue
  rw [if_neg]
  simp only [Bool.and_eq_true, decide_eq_true_eq, not_and, not_le]
  intro _
  omega

theorem recurrence_pair (w : Nat) (x y : Int) :
    recurrence w [x, y] = ((x * 127 + y) % (2 : Int) ^ w).toNat := by
  rw [recurrence_eq_polynomial, ← polynomial_eq_weightedSum]
  simp [polynomial]

/-- At a width of at least 16 bits, swapping two distinct character values, each in
`[-128, 255]`, changes the two-character code. -/
theorem recurrence_swap_ne (I : IntType) (hI : I ≠ .u8) (x y : Int) (hxy : x ≠ y)
    (hx1 : -128 ≤ x) (hx2 : x ≤ 255) (hy1 : -128 ≤ y) (hy2 : y ≤ 255) :
    recurrence I.bits [x, y] ≠ recurrence I.bits [y, x] := by
  intro heq
  rw [recurrence_pair, recurrence_pair] at heq
  have hp : (0 : Int) < (2 : Int) ^ I.bits := by positivity
  have h1 := Int.toNat_of_nonneg (Int.emod_nonneg (x * 127 + y) (ne_of_gt hp))
  have h2 := Int.toNat_of_nonneg (Int.emod_nonneg (y * 127 + x) (ne_of_gt hp))
  have h3 : (x * 127 + y) % (2 : Int) ^ I.bits = (y * 127 + x) % (2 : Int) ^ I.bits := by
    rw [← h1, ← h2, heq]
  have h16 : 16 ≤ I.bits := by cases I <;> simp [IntType.bits] at hI ⊢
  have hdvd : (2 : Int) ^ 16 ∣ (2 : Int) ^ I.bits := pow_dvd_pow 2 h16
  have h4 : (x * 127 + y) % (2 : Int) ^ 16 = (y * 127 + x) % (2 : Int) ^ 16 := by
    rw [← Int.emod_emod_of_dvd _ hdvd, h3, Int.emod_emod_of_dvd _ hdvd]
  norm_num at h4
  omega

theorem polynomial_concat (cs : List Int) (c : Int) :
    polynomial (cs ++ [c]) = polynomial cs * 127 + c := by
  simp [polynomial, List.foldl_append]

/-- A base-127 numeral whose digits lie in `1..126` is non-negative and below
`127 ^ length`. -/
theorem polynomial_digits_range (cs : List Int) (hcs : ∀ c ∈ cs, 1 ≤ c ∧ c ≤ 126) :
    0 ≤ polynomial cs ∧ polynomial cs < (127 : Int) ^ cs.length := by
  induction cs using List.reverseRecOn with
  | nil => simp [polynomial]
  | append_singleton cs c ih =>
    have hc := hcs c (by simp)
    have := ih (fun x hx => hcs x (by simp [hx]))
    rw [polynomial_concat, List.length_append, List.length_singleton, pow_succ]
    constructor
    · nlinarith [this.1]
    · nlinarith [this.2]

/-- Base-127 numerals with digits in `1..126` are equal only when the digit strings are. -/
theorem polynomial_digits_injective (s : List Int) :
    ∀ t : List Int, (∀ c ∈ s, 1 ≤ c ∧ c ≤ 126) → (∀ c ∈ t, 1 ≤ c ∧ c ≤ 126) →
      polynomial s = polynomial t → s = t := by
  induction s using List.reverseRecOn with
  | nil =>
    intro t _ ht heq
    rcases List.eq_nil_or_concat t with rfl | ⟨t1, b, rfl⟩
    · rfl
    · rw [List.concat_eq_append] at ht heq
      have hb := ht b (by simp)
      have := (polynomial_digits_range t1 (fun x hx => ht x (by simp [hx]))).1
      rw [polynomial_concat] at heq
      simp only [polynomial, List.foldl_nil] at heq
      omega
  | append_singleton s a ih =>
    intro t hs ht heq
    have ha := hs a (by simp)
    rcases List.eq_nil_or_concat t with rfl | ⟨t1, b, rfl⟩
    · have := (polynomial_digits_range s (fun x hx => hs x (by simp [hx]))).1
      rw [polynomial_concat] at heq
      simp only [polynomial, List.foldl_nil] at heq
      omega
    · rw [List.concat_eq_append] at ht heq ⊢
      have hb := ht b (by simp)
      rw [polynomial_concat, polynomial_concat] at heq
      have hst : polynomial s = polynomial t1 := by omega
      have hab : a = b := by omega
      rw [ih t1 (fun x hx => hs x (by simp [hx])) (fun x hx => ht x (by simp [hx])) hst, hab]

/-- The code of a string of characters in `1..126` that is short enough not to wrap is its
base-127 numeral. -/
theorem recurrence_no_wrap (w : Nat) (sc : Bool) (s : List Byte)
    (hs : ∀ c ∈ s, 1 ≤ c.val ∧ c.val ≤ 126) (hl : 127 ^ s.length ≤ 2 ^ w) :
    ((recurrence w (s.map (charValue sc)) : Nat) : Int) = polynomial (s.map (charValue sc)) := by
  have hd : ∀ c ∈ s.map (charValue sc), 1 ≤ c ∧ c ≤ 126 := by
    intro c hc
    obtain ⟨b, hb, rfl⟩ := List.mem_map.mp hc
    rw [charValue_of_le sc b (hs b hb).2]
    have := hs b hb
    omega
  have hr := polynomial_digits_range _ hd
  rw [List.length_map] at hr
  have hlt : polynomial (s.map (charValue sc)) < (2 : Int) ^ w := by
    have : ((127 ^ s.length : Nat) : Int) ≤ ((2 ^ w : Nat) : Int) := by exact_mod_cast hl
    push_cast at this
    omega
  rw [recurrence_eq_polynomial, ← polynomial_eq_weightedSum,
    Int.toNat_of_nonneg (Int.emod_nonneg _ (by positivity)), Int.emod_eq_of_lt hr.1 hlt]

/-- Distinct short strings of characters in `1..126` have distinct codes. -/
theorem recurrence_short_ne (w : Nat) (sc : Bool) (s t : List Byte)
    (hs : ∀ c ∈ s, 1 ≤ c.val ∧ c.val ≤ 126) (ht : ∀ c ∈ t, 1 ≤ c.val ∧ c.val ≤ 126)
    (hsl : 127 ^ s.length ≤ 2 ^ w) (htl : 127 ^ t.length ≤ 2 ^ w) (hne : s ≠ t) :
    recurrence w (s.map (charValue sc)) ≠ recurrence w (t.map (charValue sc)) := by
  intro heq
  apply hne
  have h1 := recurrence_no_wrap w sc s hs hsl
  have h2 := recurrence_no_wrap w sc t ht htl
  have hd : ∀ (l : List Byte), (∀ c ∈ l, 1 ≤ c.val ∧ c.val ≤ 126) →
      ∀ c ∈ l.map (charValue sc), 1 ≤ c ∧ c ≤ 126 := by
    intro l hl c hc
    obtain ⟨b, hb, rfl⟩ := List.mem_map.mp hc
    rw [charValue_of_le sc b (hl b hb).2]
    have := hl b hb
    omega
  have hp : polynomial (s.map (charValue sc)) = polynomial (t.map (charValue sc)) := by
    rw [← h1, ← h2, heq]
  have hm := polynomial_digits_injective _ _ (hd s hs) (hd t ht) hp
  exact (List.map_injective_iff.mpr (charValue_injective sc)) hm

theorem static_string_ofList_chars (tSize : Nat) (cs : List Byte) (fill : Byte)
    (h : cs.length ≤ tSize) : (static_string.ofList tSize cs fill h).chars = cs := by
  simp [static_string.chars, static_string.ofList]

/-! ## Widths -/

theorem recurrence_cast (w : Nat) (cs : List Int) :
    ((recurrence w cs : Nat) : Int) = weightedSum cs % (2 : Int) ^ w := by
  rw [recurrence_eq_polynomial, Int.toNat_of_nonneg (Int.emod_nonneg _ (by positivity))]

/-- The code at a narrower width is the code at a wider width reduced to the narrower one. -/
theorem recurrence_width (w1 w2 : Nat) (hw : w1 ≤ w2) (cs : List Int) :
    recurrence w1 cs = recurrence w2 cs % 2 ^ w1 := by
  apply Int.ofNat.inj
  simp only [Int.ofNat_eq_coe]
  push_cast
  rw [recurrence_cast, recurrence_cast, Int.emod_emod_of_dvd _ (pow_dvd_pow 2 hw)]

/-- The three `int` operations of the loop body on an accumulator below `2 ^ 16` and a
character value in `[-128, 255]`: none leaves the range of `int`. -/
theorem promoted_step_defined (h : Nat) (c : Int) (hh : h < 65536) (hc1 : -128 ≤ c)
    (hc2 : c ≤ 255) :
    Operand.shl (.sint (h : Int)) 7 = some (.sint ((h : Int) * 2 ^ 7))
      ∧ Operand.sub (.sint ((h : Int) * 2 ^ 7)) (.sint (h : Int))
          = some (.sint ((h : Int) * 2 ^ 7 - (h : Int)))
      ∧ Operand.add (.sint ((h : Int) * 2 ^ 7 - (h : Int))) (.sint c)
          = some (.sint ((h : Int) * 2 ^ 7 - (h : Int) + c)) := by
  have e1 : (h : Int) * (2 : Int) ^ 7 = 128 * (h : Int) := by norm_num; ring
  refine ⟨?_, ?_, ?_⟩
  · rw [shl_sint _ _ (by omega), e1, checkedInt_of_range _ (by omega) (by omega)]
  · rw [sub_sint, e1, checkedInt_of_range _ (by omega) (by omega)]
  · rw [add_sint, e1, checkedInt_of_range _ (by omega) (by omega)]

/-! ## The claims -/

/-- C1 (recurrence fidelity): for every hash width (16, 32 and 64 bits included) and every
fixed-capacity string, `hash_static_string` returns the value obtained from `h = 0` by setting
`h := (h * 127 + c) mod 2 ^ w` for each of its `length()` characters in order; the string
"ab" at width 32 gives `97 * 127 + 98 = 12417`. -/
theorem C1_recurrence_fidelity (I : IntType) (charSigned : Bool) {tSize : Nat}
    (s : static_string tSize) :
    hash_static_string I charSigned s
        = .ok (recurrence I.bits (s.chars.map (charValue charSigned)))
      ∧ hash_static_string .u32 charSigned
          (static_string.ofList 2 [97, 98] 0 (by decide)) = .ok (97 * 127 + 98) := by
  refine ⟨hash_static_string_eq I charSigned s, ?_⟩
  cases charSigned <;> decide

/-- C2 (sentinel-delimited hashing): for every hash width and every buffer that contains a
null byte, `hash_string` returns the recurrence folded over exactly the bytes before the
first null byte, and every buffer that agrees with it up to and including that first null
byte gets the same code. -/
theorem C2_sentinel_delimited (I : IntType) (charSigned : Bool) (buf : List Byte)
    (h0 : (0 : Byte) ∈ buf) :
    hash_string I charSigned buf
        = .ok (recurrence I.bits
            ((buf.takeWhile (fun c => decide (c ≠ 0))).map (charValue charSigned)))
      ∧ ∀ buf2 : List Byte,
          buf2.take ((buf.takeWhile (fun c => decide (c ≠ 0))).length + 1)
            = buf.take ((buf.takeWhile (fun c => decide (c ≠ 0))).length + 1) →
          hash_string I charSigned buf2 = hash_string I charSigned buf := by
  have hsplit := split_at_null buf h0
  have hnz := takeWhile_ne_null buf
  generalize buf.takeWhile (fun c => decide (c ≠ 0)) = pre at hsplit hnz ⊢
  generalize buf.drop (pre.length + 1) = rest at hsplit
  subst hsplit
  refine ⟨hash_string_eq I charSigned pre rest hnz, ?_⟩
  intro buf2 h2
  have e1 : (pre ++ (0 : Byte) :: rest).take (pre.length + 1) = pre ++ [0] := by
    rw [List.take_append_eq_append_take]
    simp
  have e2 : buf2 = pre ++ 0 :: buf2.drop (pre.length + 1) := by
    conv_lhs => rw [← List.take_append_drop (pre.length + 1) buf2, h2, e1]
    simp
  rw [e2, hash_string_eq I charSigned pre _ hnz, hash_string_eq I charSigned pre rest hnz]

/-- Witness of C2: the buffer `'a' 'b' 0 'x'`. -/
theorem C2_sentinel_delimited_witness :
    (0 : Byte) ∈ ([97, 98, 0, 120] : List Byte)
      ∧ hash_string .u32 false [97, 98, 0, 120] = .ok 12417
      ∧ hash_string .u32 false [97, 98, 0, 7, 7] = hash_string .u32 false [97, 98, 0, 120] := by
  have h := C2_sentinel_delimited .u32 false [97, 98, 0, 120] (by decide)
  refine ⟨by decide, ?_, h.2 [97, 98, 0, 7, 7] (by decide)⟩
  rw [h.1]
  decide

/-- C3 (cross-type consistency): for every hash width and every character sequence without
a null byte (any length, any byte values `1..255`), the fixed-capacity specialization on a
string holding the sequence, the growable-string specialization on a string holding it, and
both raw C-string specializations on the sequence followed by a null byte return the same
code. -/
theorem C3_cross_type_consistency (I : IntType) (charSigned : Bool) (cs rest : List Byte)
    (hnz : ∀ c ∈ cs, c ≠ 0) {tSize : Nat} (s : static_string tSize) (hs : s.chars = cs)
    (str : dynamic_string) (hstr : str.chars = cs) :
    hash_static I charSigned s = hash_dynamic I charSigned str
      ∧ hash_dynamic I charSigned str = hash_char_ptr I charSigned (cs ++ 0 :: rest)
      ∧ hash_char_ptr I charSigned (cs ++ 0 :: rest)
          = hash_const_char_ptr I charSigned (cs ++ 0 :: rest)
      ∧ hash_static I charSigned s
          = .ok (recurrence I.bits (cs.map (charValue charSigned))) := by
  have e1 : hash_static I charSigned s
      = .ok (recurrence I.bits (cs.map (charValue charSigned))) := by
    unfold hash_static
    rw [hash_static_string_eq, hs]
  have e2 : hash_dynamic I charSigned str
      = .ok (recurrence I.bits (cs.map (charValue charSigned))) := by
    unfold hash_dynamic dynamic_string.c_str
    rw [hstr, hash_string_eq I charSigned cs [] hnz]
  have e3 : hash_char_ptr I charSigned (cs ++ 0 :: rest)
      = .ok (recurrence I.bits (cs.map (charValue charSigned))) := by
    unfold hash_char_ptr
    rw [hash_string_eq I charSigned cs rest hnz]
  refine ⟨by rw [e1, e2], by rw [e2, e3], rfl, e1⟩

/-- Witness of C3: the two-character sequence `'a'`, byte `200`. -/
theorem C3_cross_type_consistency_witness :
    hash_static .u16 true (static_string.ofList 5 [97, 200] 1 (by decide))
        = hash_dynamic .u16 true ⟨[97, 200]⟩
      ∧ hash_dynamic .u16 true ⟨[97, 200]⟩ = hash_char_ptr .u16 true ([97, 200] ++ 0 :: [9])
      ∧ hash_char_ptr .u16 true ([97, 200] ++ 0 :: [9])
          = hash_const_char_ptr .u16 true ([97, 200] ++ 0 :: [9])
      ∧ hash_static .u16 true (static_string.ofList 5 [97, 200] 1 (by decide))
          = .ok (recurrence 16 (([97, 200] : List Byte).map (charValue true))) :=
  C3_cross_type_consistency .u16 true [97, 200] [9] (by simp)
    (static_string.ofList 5 [97, 200] 1 (by decide)) (by decide) ⟨[97, 200]⟩ rfl

/-- C4 (positional-weight closed form): for every hash width and every character sequence
`c_0 .. c_(n-1)`, the string hash (of either hasher) equals the sum of
`c_i * 127 ^ (n - 1 - i)` reduced modulo `2 ^ w` once at the end. -/
theorem C4_positional_weight (I : IntType) (charSigned : Bool) {tSize : Nat}
    (s : static_string tSize) (pre rest : List Byte) (hpre : ∀ c ∈ pre, c ≠ 0) :
    hash_static_string I charSigned s
        = .ok ((weightedSum (s.chars.map (charValue charSigned)) % (2 : Int) ^ I.bits).toNat)
      ∧ hash_string I charSigned (pre ++ 0 :: rest)
        = .ok ((weightedSum (pre.map (charValue charSigned)) % (2 : Int) ^ I.bits).toNat) := by
  rw [hash_static_string_eq, hash_string_eq I charSigned pre rest hpre,
    recurrence_eq_polynomial, recurrence_eq_polynomial]
  exact ⟨rfl, rfl⟩

/-- Witness of C4: the characters `'a' 'b' 'c'` in both string kinds. -/
theorem C4_positional_weight_witness :
    hash_static_string .u16 false (static_string.ofList 3 [97, 98, 99] 0 (by decide))
        = .ok ((weightedSum (((static_string.ofList 3 [97, 98, 99] 0 (by decide)).chars).map
            (charValue false)) % (2 : Int) ^ IntType.u16.bits).toNat)
      ∧ hash_string .u16 false ([97, 98, 99] ++ 0 :: [1])
        = .ok ((weightedSum (([97, 98, 99] : List Byte).map (charValue false))
            % (2 : Int) ^ IntType.u16.bits).toNat) :=
  C4_positional_weight .u16 false (static_string.ofList 3 [97, 98, 99] 0 (by decide))
    [97, 98, 99] [1] (by simp)

/-- C5 (default-coercion law): for every integer or character key `k` of a signed or unsigned
key type of any width and every hash width `w`, the default hash returns the unique value in
`[0, 2 ^ w)` congruent to `k` modulo `2 ^ w`, which is the key's stored pattern truncated to
`w` bits when the key type is at least that wide and sign- or zero-extended otherwise. -/
theorem C5_default_coercion (I : IntType) (K : KeyType) (k : Int) (hb : 0 < K.bits)
    (hk : K.holds k) :
    hash_default I k < 2 ^ I.bits
      ∧ ((hash_default I k : Nat) : Int) ≡ k [ZMOD (2 : Int) ^ I.bits]
      ∧ (∀ r : Nat, r < 2 ^ I.bits → (r : Int) ≡ k [ZMOD (2 : Int) ^ I.bits] →
          r = hash_default I k)
      ∧ hash_default I k = truncateOrExtend K I.bits k := by
  have hW : (0 : Int) < (2 : Int) ^ I.bits := by positivity
  have hc := hash_default_cast I k
  have hlt : hash_default I k < 2 ^ I.bits := by
    have := Int.emod_lt_of_pos k hW
    rw [← hc] at this
    exact_mod_cast this
  refine ⟨hlt, ?_, ?_, hash_default_truncateOrExtend I K k hb hk⟩
  · rw [hc]
    exact Int.mod_modEq _ _
  · intro r hr hrk
    have h1 : (r : Int) % (2 : Int) ^ I.bits = r :=
      Int.emod_eq_of_lt (by positivity) (by exact_mod_cast hr)
    have h2 : (r : Int) = ((hash_default I k : Nat) : Int) := by
      rw [hc, ← h1]
      exact hrk
    exact_mod_cast h2

/-- Witness of C5: the `int8_t` key `-1` hashed to 16 bits is `65535`. -/
theorem C5_default_coercion_witness :
    hash_default .u16 (-1) < 2 ^ IntType.u16.bits
      ∧ ((hash_default .u16 (-1) : Nat) : Int) ≡ -1 [ZMOD (2 : Int) ^ IntType.u16.bits]
      ∧ (∀ r : Nat, r < 2 ^ IntType.u16.bits →
          (r : Int) ≡ -1 [ZMOD (2 : Int) ^ IntType.u16.bits] → r = hash_default .u16 (-1))
      ∧ hash_default .u16 (-1) = truncateOrExtend ⟨true, 8⟩ IntType.u16.bits (-1) :=
  C5_default_coercion .u16 ⟨true, 8⟩ (-1) (by decide) (by decide)

/-- C6 (empty-string law): for every hash width, `hash_static_string` of a fixed-capacity
string of length `0` and `hash_string` of a buffer whose first byte is the null byte, whatever
follows it, both return `0`. -/
theorem C6_empty_string (I : IntType) (charSigned : Bool) {tSize : Nat}
    (s : static_string tSize) (hs : s.length = 0) (rest : List Byte) :
    hash_static_string I charSigned s = .ok 0
      ∧ hash_string I charSigned (0 :: rest) = .ok 0 := by
  constructor
  · unfold hash_static_string
    rw [hs, hash_static_string_loop, hs, if_neg (by omega)]
  · exact hash_string_eq I charSigned [] rest (by simp)

/-- Witness of C6: an empty string in a buffer of capacity 3 and the buffer `0 'a' 'b'`. -/
theorem C6_empty_string_witness :
    hash_static_string .u64 true (static_string.ofList 3 [] 7 (by decide)) = .ok 0
      ∧ hash_string .u64 true (0 :: [97, 98]) = .ok 0 :=
  C6_empty_string .u64 true (static_string.ofList 3 [] 7 (by decide)) rfl [97, 98]

/-- C7 (order sensitivity): at each of the widths 8, 16, 32 and 64 the hash of "ab" differs
from the hash of "ba", for the fixed-capacity and for the C-string hasher; at width 32 the
codes are `12417` and `12543`. -/
theorem C7_order_sensitivity (I : IntType) (charSigned : Bool) :
    hash_static_string I charSigned (static_string.ofList 2 [97, 98] 0 (by decide))
        ≠ hash_static_string I charSigned (static_string.ofList 2 [98, 97] 0 (by decide))
      ∧ hash_string I charSigned [97, 98, 0] ≠ hash_string I charSigned [98, 97, 0]
      ∧ hash_static_string .u32 charSigned (static_string.ofList 2 [97, 98] 0 (by decide))
          = .ok 12417
      ∧ hash_static_string .u32 charSigned (static_string.ofList 2 [98, 97] 0 (by decide))
          = .ok 12543
      ∧ hash_string .u32 charSigned [97, 98, 0] = .ok 12417
      ∧ hash_string .u32 charSigned [98, 97, 0] = .ok 12543 := by
  cases I <;> cases charSigned <;> decide

/-- Counterexample to C8 as stated: where plain `char` is signed the byte `128` is the
character value `-128`, so from `h = 0` at width 32 the step yields `2 ^ 32 - 128`, not
`(127 * 0 + 128) mod 2 ^ 32`, and the one-character string does not hash to `128`. -/
theorem C8_counterexample :
    hashStep .u32 true 0 128 = some 4294967168
      ∧ hashStep .u32 true 0 128 ≠ some ((127 * 0 + 128) % 2 ^ 32)
      ∧ hash_static_string .u32 true (static_string.ofList 1 [128] 0 (by decide)) ≠ .ok 128
      ∧ hash_string .u32 true [128, 0] ≠ .ok 128 := by
  decide

/-- C8 (folding of non-ASCII bytes), with the character taken at its value: for every byte
`b`, every hash width and every accumulator `h < 2 ^ w`, the step of both hashers yields
`(127 * h + c) mod 2 ^ w` where `c` is the value of the plain `char` that holds `b`: `b`
itself when `b < 128` or plain `char` is unsigned, and `b - 256` when `b >= 128` and plain
`char` is signed.  The one-character string `[b]` hashes to `c mod 2 ^ w`, which is `b` in the
first case and `2 ^ w - 256 + b` in the second. -/
theorem C8_byte_folding (I : IntType) (charSigned : Bool) (h : Nat) (b : Byte)
    (hh : h < 2 ^ I.bits) :
    hashStep I charSigned h b
        = some (((127 * (h : Int) + charValue charSigned b) % (2 : Int) ^ I.bits).toNat)
      ∧ (charSigned = false ∨ b.val < 128 →
          charValue charSigned b = (b.val : Int)
            ∧ hashStep I charSigned h b = some ((127 * h + b.val) % 2 ^ I.bits)
            ∧ hash_static_string I charSigned (static_string.ofList 1 [b] 0 (by simp))
                = .ok b.val
            ∧ (b ≠ 0 → hash_string I charSigned [b, 0] = .ok b.val))
      ∧ (charSigned = true ∧ 128 ≤ b.val →
          charValue charSigned b = (b.val : Int) - 256
            ∧ hash_static_string I charSigned (static_string.ofList 1 [b] 0 (by simp))
                = .ok (2 ^ I.bits - 256 + b.val)
            ∧ hash_string I charSigned [b, 0] = .ok (2 ^ I.bits - 256 + b.val)) := by
  have hb := b.isLt
  have hW : (256 : Int) ≤ (2 : Int) ^ I.bits := by cases I <;> simp [IntType.bits]
  have hWn : (256 : Nat) ≤ 2 ^ I.bits := by cases I <;> simp [IntType.bits]
  have hstep := hashStep_eq I charSigned h b hh
  have hcomm : (h : Int) * 127 = 127 * (h : Int) := by ring
  rw [hcomm] at hstep
  have hchars : (static_string.ofList 1 [b] 0 (by simp)).chars = [b] := by
    simp [static_string.chars, static_string.ofList]
  have hone : ∀ c : Int, recurrence I.bits [c] = (c % (2 : Int) ^ I.bits).toNat := by
    intro c
    simp [recurrence, recurrenceStep]
  have hstatic := hash_static_string_eq I charSigned (static_string.ofList 1 [b] 0 (by simp))
  rw [hchars, List.map_singleton, hone] at hstatic
  have hstring : b ≠ 0 → hash_string I charSigned [b, 0]
      = .ok ((charValue charSigned b % (2 : Int) ^ I.bits).toNat) := by
    intro hb0
    have := hash_string_eq I charSigned [b] [] (by simpa using hb0)
    rw [List.map_singleton, hone] at this
    exact this
  refine ⟨hstep, ?_, ?_⟩
  · intro hcase
    have hcv : charValue charSigned b = (b.val : Int) := by
      unfold charValue
      rcases hcase with h1 | h1
      · subst h1; simp
      · rw [if_neg]
        simp
        intro _
        omega
    have hmod : ((b.val : Int) % (2 : Int) ^ I.bits).toNat = b.val := by
      rw [Int.emod_eq_of_lt (by omega) (by omega)]
      simp
    refine ⟨hcv, ?_, ?_, ?_⟩
    · rw [hstep, hcv]
      congr 1
      apply Int.ofNat.inj
      simp only [Int.ofNat_eq_coe]
      rw [Int.toNat_of_nonneg (Int.emod_nonneg _ (by positivity))]
      push_cast
      rfl
    · rw [hstatic, hcv, hmod]
    · intro hb0
      rw [hstring hb0, hcv, hmod]
  · intro hcase
    have hcv : charValue charSigned b = (b.val : Int) - 256 := by
      unfold charValue
      rw [if_pos]
      simp
      exact hcase
    have hmod : (((b.val : Int) - 256) % (2 : Int) ^ I.bits).toNat
        = 2 ^ I.bits - 256 + b.val := by
      rw [emod_of_neg _ _ (by omega) (by omega)]
      apply Int.ofNat.inj
      simp only [Int.ofNat_eq_coe]
      rw [Int.toNat_of_nonneg (by omega)]
      push_cast [Nat.cast_sub hWn]
      ring
    have hb0 : b ≠ 0 := by
      intro h0
      rw [h0] at hcase
      simp at hcase
    refine ⟨hcv, ?_, ?_⟩
    · rw [hstatic, hcv, hmod]
    · rw [hstring hb0, hcv, hmod]

/-- Witness of C8: the byte `200` folded into `h = 5` at width 16 where plain
`char` is signed. -/
theorem C8_byte_folding_witness :
    hashStep .u16 true 5 200 = some 579
      ∧ hash_static_string .u16 true (static_string.ofList 1 [200] 0 (by simp))
          = .ok (2 ^ IntType.u16.bits - 256 + 200) := by
  have h := C8_byte_folding .u16 true 5 200 (by decide)
  refine ⟨?_, (h.2.2 ⟨rfl, by decide⟩).2.1⟩
  rw [h.1]
  decide

/-- C9 (bounds safety of the C-string hasher): on every buffer that contains a null byte,
with `i` the index of the first null byte, `hash_string` ends with a hash code (it does not
run out of fuel, and every larger amount of fuel gives the same run), it does not read out of
bounds, every index it reads is at most `i`, and it reads index `i`, whatever bytes follow
the null byte. -/
theorem C9_bounds_safety (I : IntType) (charSigned : Bool) (buf : List Byte)
    (h0 : (0 : Byte) ∈ buf) :
    buf.indexOf 0 < buf.length
      ∧ (∃ h, (hash_string_run I charSigned buf).outcome = .ok h)
      ∧ (hash_string_run I charSigned buf).outcome ≠ .outOfBounds
      ∧ (hash_string_run I charSigned buf).outcome ≠ .outOfFuel
      ∧ (∀ j ∈ (hash_string_run I charSigned buf).reads,
          j ≤ buf.indexOf 0 ∧ j < buf.length)
      ∧ buf.indexOf 0 ∈ (hash_string_run I charSigned buf).reads
      ∧ ∀ fuel, buf.indexOf 0 < fuel →
          hash_string_loop I charSigned buf fuel 0 0 = hash_string_run I charSigned buf := by
  have hidx : buf.indexOf 0 < buf.length := List.indexOf_lt_length.mpr h0
  have hsplit := split_at_null buf h0
  have hnz := takeWhile_ne_null buf
  generalize buf.takeWhile (fun c => decide (c ≠ 0)) = pre at hsplit hnz
  generalize buf.drop (pre.length + 1) = rest at hsplit
  subst hsplit
  have hi := indexOf_null pre rest hnz
  have hrun := hash_string_run_eq I charSigned pre rest hnz
  rw [hi] at hidx ⊢
  rw [hrun]
  refine ⟨hidx, ⟨_, rfl⟩, by simp, by simp, ?_, ?_, ?_⟩
  · intro j hj
    have := (expectedReads_mem pre.length 0 j).mp hj
    omega
  · exact (expectedReads_mem pre.length 0 pre.length).mpr (by omega)
  · intro fuel hf
    rw [hash_string_loop_fuel I charSigned pre rest hnz fuel hf, hrun]

/-- Witness of C9: the buffer `'a' 0 'b' 'c'`, whose first null byte is at index 1. -/
theorem C9_bounds_safety_witness :
    (0 : Byte) ∈ ([97, 0, 98, 99] : List Byte)
      ∧ ([97, 0, 98, 99] : List Byte).indexOf 0 = 1
      ∧ hash_string_run .u32 false [97, 0, 98, 99] = ⟨.ok 97, [0, 0, 1]⟩
      ∧ (∀ j ∈ (hash_string_run .u32 false [97, 0, 98, 99]).reads,
          j ≤ ([97, 0, 98, 99] : List Byte).indexOf 0
            ∧ j < ([97, 0, 98, 99] : List Byte).length) :=
  ⟨by decide, by decide, by decide,
    (C9_bounds_safety .u32 false [97, 0, 98, 99] (by decide)).2.2.2.2.1⟩

/-- C11 (determinism): the code depends only on the key's value.  Two fixed-capacity strings
with the same length and the same characters get the same code whatever their capacities and
the bytes beyond the tracked length; two buffers with the same bytes up to a null byte get the
same code whatever follows it; and the default hash of a key is a function of its value.  In
each case a code is returned. -/
theorem C11_determinism (I : IntType) (charSigned : Bool) {n1 n2 : Nat}
    (s1 : static_string n1) (s2 : static_string n2) (hlen : s1.length = s2.length)
    (hat : ∀ pos, pos < s1.length → s1.at pos = s2.at pos)
    (pre rest1 rest2 : List Byte) (hpre : ∀ c ∈ pre, c ≠ 0) :
    hash_static_string I charSigned s1 = hash_static_string I charSigned s2
      ∧ (∃ h, hash_static_string I charSigned s1 = .ok h)
      ∧ hash_string I charSigned (pre ++ 0 :: rest1)
          = hash_string I charSigned (pre ++ 0 :: rest2)
      ∧ (∃ h, hash_string I charSigned (pre ++ 0 :: rest1) = .ok h)
      ∧ ∀ k1 k2 : Int, k1 = k2 → hash_default I k1 = hash_default I k2 := by
  refine ⟨?_, ⟨_, hash_static_string_eq I charSigned s1⟩, ?_,
    ⟨_, hash_string_eq I charSigned pre rest1 hpre⟩, fun _ _ h => by rw [h]⟩
  · rw [hash_static_string_eq, hash_static_string_eq,
      static_string_chars_ext s1 s2 hlen hat]
  · rw [hash_string_eq I charSigned pre rest1 hpre, hash_string_eq I charSigned pre rest2 hpre]

/-- Witness of C11: "ab" in a buffer of capacity 2 and in a buffer of capacity 5 filled with
other bytes, and the C strings `'a' 'b' 0` followed by different bytes. -/
theorem C11_determinism_witness :
    hash_static_string .u32 true (static_string.ofList 2 [97, 98] 0 (by decide))
        = hash_static_string .u32 true (static_string.ofList 5 [97, 98] 77 (by decide))
      ∧ hash_string .u32 true ([97, 98] ++ 0 :: [1, 2])
          = hash_string .u32 true ([97, 98] ++ 0 :: [200]) := by
  have h := C11_determinism .u32 true (static_string.ofList 2 [97, 98] 0 (by decide))
    (static_string.ofList 5 [97, 98] 77 (by decide)) rfl (by decide) [97, 98] [1, 2] [200]
    (by simp)
  exact ⟨h.1, h.2.2.1⟩

/-- C12 (uniqueness of the default hash): for every hash width `w` and every integer key `k`
with `0 <= k < 2 ^ w` the default hash of `k` is `k`, so two distinct such keys get distinct
codes. -/
theorem C12_default_unique (I : IntType) (k1 k2 : Int) (h1 : 0 ≤ k1)
    (h1w : k1 < (2 : Int) ^ I.bits) (h2 : 0 ≤ k2) (h2w : k2 < (2 : Int) ^ I.bits) :
    ((hash_default I k1 : Nat) : Int) = k1
      ∧ (k1 ≠ k2 → hash_default I k1 ≠ hash_default I k2) := by
  have e1 : ((hash_default I k1 : Nat) : Int) = k1 := by
    rw [hash_default_cast, Int.emod_eq_of_lt h1 h1w]
  have e2 : ((hash_default I k2 : Nat) : Int) = k2 := by
    rw [hash_default_cast, Int.emod_eq_of_lt h2 h2w]
  refine ⟨e1, ?_⟩
  intro hne heq
  apply hne
  rw [← e1, ← e2, heq]

/-- Witness of C12: the keys `65535` and `7` at 16 bits. -/
theorem C12_default_unique_witness :
    ((hash_default .u16 65535 : Nat) : Int) = 65535
      ∧ ((65535 : Int) ≠ 7 → hash_default .u16 65535 ≠ hash_default .u16 7) :=
  C12_default_unique .u16 65535 7 (by decide) (by decide) (by decide) (by decide)

/-- C13 (the two formulations of the step agree): at each of the widths 8, 16, 32 and 64, for
every accumulator `h < 2 ^ w` and every character, `static_cast<IntType>(((h << 7) - h) + c)`
is defined and equals `(127 * h + c) mod 2 ^ w`, and `MUL_127(h)` cast to the hash type is
`127 * h mod 2 ^ w`, also where the shift and the subtraction are carried out in `int`. -/
theorem C13_step_formulations (I : IntType) (charSigned : Bool) (h : Nat) (c : Byte)
    (hh : h < 2 ^ I.bits) :
    hashStep I charSigned h c
        = some (((127 * (h : Int) + charValue charSigned c) % (2 : Int) ^ I.bits).toNat)
      ∧ hashStep I charSigned h c = some (recurrenceStep I.bits h (charValue charSigned c))
      ∧ ∃ m, MUL_127 (promote I h) = some m ∧ static_cast I m = (127 * h) % 2 ^ I.bits := by
  have hstep := hashStep_eq I charSigned h c hh
  refine ⟨?_, hstep, MUL_127_cast I h hh⟩
  rw [hstep, mul_comm]

/-- Witness of C13: the accumulator `65535` and the character `'a'` at 16 bits, computed in
`int`. -/
theorem C13_step_formulations_witness :
    hashStep .u16 false 65535 97 = some ((127 * 65535 + 97) % 2 ^ 16) := by
  have h := (C13_step_formulations .u16 false 65535 97 (by decide)).1
  rw [h]
  decide

/-- C14 (swapping two distinct characters): at each of the widths 16, 32 and 64, for every
two distinct bytes `a` and `b` the code of `[a, b]` differs from the code of `[b, a]`, for both
hashers; the uncut difference is `126 * (a - b)` on the character values, which is non-zero
and below `2 ^ 16` in absolute value.  At width 8 the bytes `1` and `129`, which differ by
`128`, collide. -/
theorem C14_swap_changes_hash (I : IntType) (charSigned : Bool) (a b : Byte) (hab : a ≠ b)
    (hI : I ≠ .u8) :
    hash_static_string I charSigned (static_string.ofList 2 [a, b] 0 (by simp))
        ≠ hash_static_string I charSigned (static_string.ofList 2 [b, a] 0 (by simp))
      ∧ (a ≠ 0 → b ≠ 0 →
          hash_string I charSigned [a, b, 0] ≠ hash_string I charSigned [b, a, 0])
      ∧ ((charValue charSigned a * 127 + charValue charSigned b)
            - (charValue charSigned b * 127 + charValue charSigned a)
          = 126 * (charValue charSigned a - charValue charSigned b)
        ∧ 126 * (charValue charSigned a - charValue charSigned b) ≠ 0
        ∧ -(2 : Int) ^ 16 < 126 * (charValue charSigned a - charValue charSigned b)
        ∧ 126 * (charValue charSigned a - charValue charSigned b) < (2 : Int) ^ 16)
      ∧ hash_static_string .u8 charSigned (static_string.ofList 2 [1, 129] 0 (by simp))
          = hash_static_string .u8 charSigned (static_string.ofList 2 [129, 1] 0 (by simp))
      ∧ hash_string .u8 charSigned [1, 129, 0] = hash_string .u8 charSigned [129, 1, 0] := by
  obtain ⟨ha1, ha2⟩ := charValue_range charSigned a
  obtain ⟨hb1, hb2⟩ := charValue_range charSigned b
  have hne : charValue charSigned a ≠ charValue charSigned b :=
    fun h => hab (charValue_injective charSigned h)
  have hrec := recurrence_swap_ne I hI _ _ hne ha1 ha2 hb1 hb2
  have hsame : charSigned = false ∨ charSigned = true := by cases charSigned <;> simp
  refine ⟨?_, ?_, ⟨by ring, by omega, ?_, ?_⟩, ?_, ?_⟩
  · rw [hash_static_string_eq, hash_static_string_eq, static_string_ofList_chars,
      static_string_ofList_chars]
    intro h
    exact hrec (Outcome.ok.inj h)
  · intro ha0 hb0
    have e1 := hash_string_eq I charSigned [a, b] [] (by
      intro c hc
      simp at hc
      rcases hc with rfl | rfl <;> assumption)
    have e2 := hash_string_eq I charSigned [b, a] [] (by
      intro c hc
      simp at hc
      rcases hc with rfl | rfl <;> assumption)
    simp only [List.cons_append, List.nil_append] at e1 e2
    rw [e1, e2]
    intro h
    exact hrec (Outcome.ok.inj h)
  · have hrange : charValue charSigned a - charValue charSigned b ≤ 255
        ∧ -255 ≤ charValue charSigned a - charValue charSigned b := by
      have := a.isLt
      have := b.isLt
      unfold charValue
      rcases hsame with h | h <;> subst h <;> simp <;> (repeat' split) <;> omega
    norm_num
    omega
  · have hrange : charValue charSigned a - charValue charSigned b ≤ 255
        ∧ -255 ≤ charValue charSigned a - charValue charSigned b := by
      have := a.isLt
      have := b.isLt
      unfold charValue
      rcases hsame with h | h <;> subst h <;> simp <;> (repeat' split) <;> omega
    norm_num
    omega
  · cases charSigned <;> decide
  · cases charSigned <;> decide

/-- Witness of C14: the bytes `'a'` and `200` at 16 bits where plain `char` is signed. -/
theorem C14_swap_changes_hash_witness :
    hash_static_string .u16 true (static_string.ofList 2 [97, 200] 0 (by simp))
        ≠ hash_static_string .u16 true (static_string.ofList 2 [200, 97] 0 (by simp))
      ∧ hash_string .u16 true [97, 200, 0] ≠ hash_string .u16 true [200, 97, 0] := by
  have h := C14_swap_changes_hash .u16 true 97 200 (by decide) (by decide)
  exact ⟨h.1, h.2.1 (by decide) (by decide)⟩

/-- C15 (collision-freedom on short 7-bit strings): for every hash width `w` and every two
distinct strings, possibly of different lengths, whose characters lie in `1..126` and whose
lengths `L` satisfy `127 ^ L <= 2 ^ w`, the codes of both hashers differ: nothing wraps and the
code is the base-127 numeral of the string.  The lengths allowed are up to 2 at 16 bits, 4 at
32 bits and 9 at 64 bits. -/
theorem C15_short_strings_distinct (I : IntType) (charSigned : Bool) (s t : List Byte)
    (hs : ∀ c ∈ s, 1 ≤ c.val ∧ c.val ≤ 126) (ht : ∀ c ∈ t, 1 ≤ c.val ∧ c.val ≤ 126)
    (hsl : 127 ^ s.length ≤ 2 ^ I.bits) (htl : 127 ^ t.length ≤ 2 ^ I.bits) (hne : s ≠ t)
    {n1 n2 : Nat} (ss : static_string n1) (st : static_string n2)
    (hss : ss.chars = s) (hst : st.chars = t) (rest1 rest2 : List Byte) :
    hash_static_string I charSigned ss ≠ hash_static_string I charSigned st
      ∧ hash_string I charSigned (s ++ 0 :: rest1) ≠ hash_string I charSigned (t ++ 0 :: rest2)
      ∧ hash_static_string I charSigned ss
          = .ok (weightedSum (s.map fun c => (c.val : Int))).toNat
      ∧ hash_string I charSigned (s ++ 0 :: rest1)
          = .ok (weightedSum (s.map fun c => (c.val : Int))).toNat
      ∧ (127 ^ 2 ≤ 2 ^ IntType.u16.bits ∧ 2 ^ IntType.u16.bits < 127 ^ 3)
      ∧ (127 ^ 4 ≤ 2 ^ IntType.u32.bits ∧ 2 ^ IntType.u32.bits < 127 ^ 5)
      ∧ (127 ^ 9 ≤ 2 ^ IntType.u64.bits ∧ 2 ^ IntType.u64.bits < 127 ^ 10) := by
  have hrec := recurrence_short_ne I.bits charSigned s t hs ht hsl htl hne
  have hnz : ∀ (l : List Byte), (∀ c ∈ l, 1 ≤ c.val ∧ c.val ≤ 126) → ∀ c ∈ l, c ≠ 0 := by
    intro l hl c hc h0
    have := (hl c hc).1
    rw [h0] at this
    simp at this
  have hmap : s.map (charValue charSigned) = s.map fun c => (c.val : Int) :=
    List.map_inj_left.mpr fun c hc => charValue_of_le charSigned c (hs c hc).2
  have hval : recurrence I.bits (s.map (charValue charSigned))
      = (weightedSum (s.map fun c => (c.val : Int))).toNat := by
    have h1 := recurrence_no_wrap I.bits charSigned s hs hsl
    rw [polynomial_eq_weightedSum] at h1
    rw [hmap] at h1 ⊢
    rw [← h1, Int.toNat_natCast]
  have e1 := hash_static_string_eq I charSigned ss
  have e2 := hash_static_string_eq I charSigned st
  have e3 := hash_string_eq I charSigned s rest1 (hnz s hs)
  have e4 := hash_string_eq I charSigned t rest2 (hnz t ht)
  rw [hss] at e1
  rw [hst] at e2
  refine ⟨?_, ?_, ?_, ?_, ?_, ?_, ?_⟩
  · rw [e1, e2]
    intro h
    exact hrec (Outcome.ok.inj h)
  · rw [e3, e4]
    intro h
    exact hrec (Outcome.ok.inj h)
  · rw [e1, hval]
  · rw [e3, hval]
  · simp [IntType.bits]
  · simp [IntType.bits]
  · simp [IntType.bits]

/-- Witness of C15: the strings "ab" and "b" at 16 bits. -/
theorem C15_short_strings_distinct_witness :
    hash_static_string .u16 false (static_string.ofList 2 [97, 98] 0 (by simp))
        ≠ hash_static_string .u16 false (static_string.ofList 4 [98] 0 (by simp))
      ∧ hash_string .u16 false ([97, 98] ++ 0 :: [])
          ≠ hash_string .u16 false ([98] ++ 0 :: [5]) := by
  have h := C15_short_strings_distinct .u16 false [97, 98] [98] (by simp; decide)
    (by simp; decide)
    (by simp [IntType.bits]) (by simp [IntType.bits]) (by simp)
    (static_string.ofList 2 [97, 98] 0 (by simp)) (static_string.ofList 4 [98] 0 (by simp))
    (static_string_ofList_chars _ _ _ _) (static_string_ofList_chars _ _ _ _) [] [5]
  exact ⟨h.1, h.2.1⟩

/-- C16 (embedded null byte): `hash_static_string` folds all `length()` bytes, null bytes
included, while `hash_string` stops at the first null byte.  For the bytes `'a' 0 'b'` with
tracked length 3, `hash_static_string` returns `(97 * 127 ^ 2 + 98) mod 2 ^ w` and
`hash_string` over the same bytes returns `97`.  In general, for bytes whose first null byte
is at position `i`, `hash_string` of the bytes equals `hash_static_string` of a string holding
only the first `i` bytes. -/
theorem C16_embedded_null (I : IntType) (charSigned : Bool) (pre rest : List Byte)
    (hpre : ∀ c ∈ pre, c ≠ 0) {n1 n2 : Nat} (s : static_string n1) (hs : s.chars = pre)
    (t : static_string n2) (ht : t.chars = pre ++ 0 :: rest) :
    hash_string I charSigned t.chars = hash_static_string I charSigned s
      ∧ hash_static_string I charSigned t
          = .ok (recurrence I.bits ((pre ++ 0 :: rest).map (charValue charSigned)))
      ∧ hash_static_string I charSigned (static_string.ofList 3 [97, 0, 98] 0 (by simp))
          = .ok ((97 * 127 ^ 2 + 98) % 2 ^ I.bits)
      ∧ hash_string I charSigned [97, 0, 98] = .ok 97
      ∧ hash_static_string I charSigned (static_string.ofList 3 [97, 0, 98] 0 (by simp))
          ≠ hash_string I charSigned [97, 0, 98] := by
  refine ⟨?_, ?_, ?_, ?_, ?_⟩
  · rw [ht, hash_string_eq I charSigned pre rest hpre, hash_static_string_eq, hs]
  · rw [hash_static_string_eq, ht]
  · cases I <;> cases charSigned <;> decide
  · cases I <;> cases charSigned <;> decide
  · cases I <;> cases charSigned <;> decide

/-- Witness of C16: the bytes `'a' 'b' 0 'c'` against the string "ab". -/
theorem C16_embedded_null_witness :
    hash_string .u32 false (static_string.ofList 4 [97, 98, 0, 99] 0 (by simp)).chars
        = hash_static_string .u32 false (static_string.ofList 2 [97, 98] 0 (by simp))
      ∧ hash_static_string .u32 false (static_string.ofList 4 [97, 98, 0, 99] 0 (by simp))
          = .ok (recurrence IntType.u32.bits
              (([97, 98] ++ 0 :: [99] : List Byte).map (charValue false))) := by
  have h := C16_embedded_null .u32 false [97, 98] [99] (by simp)
    (static_string.ofList 2 [97, 98] 0 (by simp)) (static_string_ofList_chars _ _ _ _)
    (static_string.ofList 4 [97, 98, 0, 99] 0 (by simp)) (static_string_ofList_chars _ _ _ _)
  exact ⟨h.1, h.2.1⟩

/-- C17 (no signed overflow in the promoted step): where the hash type is 8 or 16 bits wide,
so that the step is evaluated in 32-bit `int`, for every accumulator `h < 2 ^ 16` and every
character value `c` in `[-128, 255]` each of `h << 7`, `(h << 7) - h` and `((h << 7) - h) + c`
is defined and lies in `[-2 ^ 31, 2 ^ 31)`; the step never takes the overflow branch and its
only reduction is the final cast. -/
theorem C17_no_signed_overflow (I : IntType) (h : Nat) (c : Int) (hI : I.bits < INT_BITS)
    (hh : h < 2 ^ 16) (hc1 : -128 ≤ c) (hc2 : c ≤ 255) :
    (I = .u8 ∨ I = .u16)
      ∧ promote I h = .sint (h : Int)
      ∧ Operand.shl (.sint (h : Int)) 7 = some (.sint ((h : Int) * 2 ^ 7))
      ∧ (-(2 : Int) ^ 31 ≤ (h : Int) * 2 ^ 7 ∧ (h : Int) * 2 ^ 7 < (2 : Int) ^ 31)
      ∧ Operand.sub (.sint ((h : Int) * 2 ^ 7)) (.sint (h : Int))
          = some (.sint ((h : Int) * 2 ^ 7 - (h : Int)))
      ∧ (-(2 : Int) ^ 31 ≤ (h : Int) * 2 ^ 7 - (h : Int)
          ∧ (h : Int) * 2 ^ 7 - (h : Int) < (2 : Int) ^ 31)
      ∧ Operand.add (.sint ((h : Int) * 2 ^ 7 - (h : Int))) (.sint c)
          = some (.sint ((h : Int) * 2 ^ 7 - (h : Int) + c))
      ∧ (-(2 : Int) ^ 31 ≤ (h : Int) * 2 ^ 7 - (h : Int) + c
          ∧ (h : Int) * 2 ^ 7 - (h : Int) + c < (2 : Int) ^ 31)
      ∧ (∀ (charSigned : Bool) (b : Byte), hashStep I charSigned h b
          = some (static_cast I (.sint ((h : Int) * 2 ^ 7 - (h : Int) + charValue charSigned b))))
      ∧ (∀ (charSigned : Bool) {tSize : Nat} (s : static_string tSize),
          hash_static_string I charSigned s ≠ .overflow)
      ∧ ∀ (charSigned : Bool) (buf : List Byte), (0 : Byte) ∈ buf →
          hash_string I charSigned buf ≠ .overflow := by
  have hh' : h < 65536 := by norm_num at hh; exact hh
  obtain ⟨d1, d2, d3⟩ := promoted_step_defined h c hh' hc1 hc2
  have e1 : (h : Int) * (2 : Int) ^ 7 = 128 * (h : Int) := by norm_num; ring
  refine ⟨?_, promote_narrow I h hI, d1, ?_, d2, ?_, d3, ?_, ?_, ?_, ?_⟩
  · cases I <;> simp [IntType.bits, INT_BITS] at hI ⊢
  · rw [e1]; norm_num; omega
  · rw [e1]; norm_num; omega
  · rw [e1]; norm_num; omega
  · intro sc b
    obtain ⟨b1, b2⟩ := charValue_range sc b
    obtain ⟨f1, f2, f3⟩ := promoted_step_defined h (charValue sc b) hh' b1 b2
    rw [hashStep_unfold, promote_narrow I h hI, MUL_127_unfold, f1, Option.some_bind, f2,
      Option.some_bind, f3, Option.map_some']
  · intro sc tSize s
    rw [hash_static_string_eq]
    simp
  · intro sc buf h0
    have hsplit := split_at_null buf h0
    have hnz := takeWhile_ne_null buf
    rw [hsplit, hash_string_eq I sc _ _ hnz]
    simp

/-- Witness of C17: the largest 16-bit accumulator with the largest character value. -/
theorem C17_no_signed_overflow_witness :
    Operand.add (.sint (((65535 : Nat) : Int) * 2 ^ 7 - ((65535 : Nat) : Int))) (.sint 255)
        = some (.sint (((65535 : Nat) : Int) * 2 ^ 7 - ((65535 : Nat) : Int) + 255))
      ∧ hashStep .u16 false 65535 255 = some 128 := by
  have h := C17_no_signed_overflow .u16 65535 255 (by decide) (by decide) (by decide)
    (by decide)
  refine ⟨h.2.2.2.2.2.2.1, ?_⟩
  decide

/-- C18 (width consistency): for every character sequence and every two hash widths
`w1 <= w2` among 8, 16, 32 and 64, the code at width `w1` is the code at width `w2` reduced
modulo `2 ^ w1`, for both hashers. -/
theorem C18_width_consistency (I1 I2 : IntType) (charSigned : Bool) (hw : I1.bits ≤ I2.bits)
    {tSize : Nat} (s : static_string tSize) (pre rest : List Byte) (hpre : ∀ c ∈ pre, c ≠ 0) :
    (∃ h1 h2, hash_static_string I1 charSigned s = .ok h1
        ∧ hash_static_string I2 charSigned s = .ok h2 ∧ h1 = h2 % 2 ^ I1.bits)
      ∧ ∃ g1 g2, hash_string I1 charSigned (pre ++ 0 :: rest) = .ok g1
        ∧ hash_string I2 charSigned (pre ++ 0 :: rest) = .ok g2 ∧ g1 = g2 % 2 ^ I1.bits :=
  ⟨⟨_, _, hash_static_string_eq I1 charSigned s, hash_static_string_eq I2 charSigned s,
      recurrence_width _ _ hw _⟩,
    ⟨_, _, hash_string_eq I1 charSigned pre rest hpre, hash_string_eq I2 charSigned pre rest hpre,
      recurrence_width _ _ hw _⟩⟩

/-- Witness of C18: "ab" at 8 and at 32 bits, `129 = 12417 mod 256`. -/
theorem C18_width_consistency_witness :
    (∃ h1 h2,
        hash_static_string .u8 true (static_string.ofList 2 [97, 98] 0 (by simp)) = .ok h1
        ∧ hash_static_string .u32 true (static_string.ofList 2 [97, 98] 0 (by simp)) = .ok h2
        ∧ h1 = h2 % 2 ^ IntType.u8.bits)
      ∧ ∃ g1 g2, hash_string .u8 true ([97, 98] ++ 0 :: []) = .ok g1
        ∧ hash_string .u32 true ([97, 98] ++ 0 :: []) = .ok g2
        ∧ g1 = g2 % 2 ^ IntType.u8.bits :=
  C18_width_consistency .u8 .u32 true (by decide)
    (static_string.ofList 2 [97, 98] 0 (by simp)) [97, 98] [] (by simp)

end wlp
